import Mathlib

/-!
# PRESENT cipher, scalar and bit-sliced implementations: a verification development

Shallow embedding of the two C implementations of the PRESENT block cipher found in
this repository:

* the scalar implementation (one 8-byte block at a time), and
* the bit-sliced implementation in `present_bs/crypto.c` (32 blocks at a time,
  one 32-bit register per state bit position).

Byte buffers (`uint8_t[]`) are modelled as `List Nat` whose entries are below 256;
bit-sliced registers (`bs_reg_t`, a 32-bit word) as `Nat` below `2 ^ 32`.  Every
place where the C code truncates a wider intermediate value on assignment to a
`uint8_t` is modelled by an explicit `% 256`.
-/

/-- Modelled from the spec: the compile-time constants of the missing header
`crypto.h` — block size in bytes (8), key size in bytes (10), block size in
bits (64), and the bit-sliced width (32, matching the 32-bit
`bs_reg_t` registers whose all-ones mask `0xFFFFFFFF` appears in `crypto.c`). -/
def CRYPTO_IN_SIZE : Nat := 8

/-- Modelled from the spec: block size in bits, `CRYPTO_IN_SIZE * 8`. -/
def CRYPTO_IN_SIZE_BIT : Nat := 64

/-- Modelled from the spec: key register size in bytes (80-bit key). -/
def CRYPTO_KEY_SIZE : Nat := 10

/-- Modelled from the spec: number of blocks processed at once by the
bit-sliced implementation, one bit lane per block in each 32-bit register. -/
def BITSLICE_WIDTH : Nat := 32

/-- A byte buffer of length `n`: each entry is a `uint8_t` value. -/
def bytesWF (l : List Nat) (n : Nat) : Prop := l.length = n ∧ ∀ v ∈ l, v < 256

/-- A buffer of `n` 32-bit bit-sliced registers (`bs_reg_t[n]`). -/
def wordsWF (l : List Nat) (n : Nat) : Prop := l.length = n ∧ ∀ v ∈ l, v < 2 ^ 32

instance (l : List Nat) (n : Nat) : Decidable (bytesWF l n) := by
  unfold bytesWF; infer_instance

instance (l : List Nat) (n : Nat) : Decidable (wordsWF l n) := by
  unfold wordsWF; infer_instance

/-- The permuted destination of state bit `b`, the expression
`(b / 4) + (b % 4) * 16` computed inline by both `pbox_layer` implementations. -/
def pboxIdx (b : Nat) : Nat := b / 4 + b % 4 * 16

namespace PresentScalar

/-- `getbit` retrieves one bit from a byte. -/
def getbit (v bit : Nat) : Nat := (v >>> bit) &&& 1

/-- `cpybit` sets one bit in a byte to a specific value `bitv`, either 0 or 1.
The mask `~(1 << bit)` is a `uint8_t`, hence the low eight bits of the
complement; the returned value is truncated to a byte. -/
def cpybit (v bit bitv : Nat) : Nat :=
  ((v &&& (255 ^^^ ((1 <<< bit) % 256))) ||| (bitv <<< bit)) % 256

/-- `add_round_key` XORs the round key into the plaintext, byte by byte. -/
def add_round_key (pt roundkey : List Nat) : List Nat :=
  (List.range CRYPTO_IN_SIZE).map fun i => pt.getD i 0 ^^^ roundkey.getD i 0

/-- The fixed 16-entry substitution table. -/
def sbox : List Nat :=
  [0xC, 0x5, 0x6, 0xB, 0x9, 0x0, 0xA, 0xD, 0x3, 0xE, 0xF, 0x8, 0x4, 0x7, 0x1, 0x2]

/-- `sbox_layer` substitutes the low and the high nibble of every state byte
through the table and recombines them. -/
def sbox_layer (s : List Nat) : List Nat :=
  (List.range CRYPTO_IN_SIZE).map fun i =>
    sbox.getD (s.getD i 0 &&& 0xF) 0 ||| (sbox.getD (s.getD i 0 >>> 4) 0 <<< 4)

/-- `pbox_layer` moves every state bit `b` to position `pboxIdx b` of a zeroed
scratch buffer, which becomes the new state. -/
def pbox_layer (s : List Nat) : List Nat :=
  (List.range CRYPTO_IN_SIZE_BIT).foldl
    (fun state_out b =>
      state_out.set (pboxIdx b / 8)
        (cpybit (state_out.getD (pboxIdx b / 8) 0) (pboxIdx b % 8)
          (getbit (s.getD (b / 8) 0) (b % 8))))
    (List.replicate 8 0)

/-- Step 1 of `update_round_key` (the block of ten byte assignments): every
new byte combines the high five bits of the byte two positions ahead and the
low three bits of the byte three positions ahead, cyclically; each assignment
truncates to a byte. -/
def rotate_step (key : List Nat) : List Nat :=
  [ (key.getD 2 0 >>> 3 ||| key.getD 3 0 <<< 5) % 256,
    (key.getD 3 0 >>> 3 ||| key.getD 4 0 <<< 5) % 256,
    (key.getD 4 0 >>> 3 ||| key.getD 5 0 <<< 5) % 256,
    (key.getD 5 0 >>> 3 ||| key.getD 6 0 <<< 5) % 256,
    (key.getD 6 0 >>> 3 ||| key.getD 7 0 <<< 5) % 256,
    (key.getD 7 0 >>> 3 ||| key.getD 8 0 <<< 5) % 256,
    (key.getD 8 0 >>> 3 ||| key.getD 9 0 <<< 5) % 256,
    (key.getD 9 0 >>> 3 ||| key.getD 0 0 <<< 5) % 256,
    (key.getD 0 0 >>> 3 ||| key.getD 1 0 <<< 5) % 256,
    (key.getD 1 0 >>> 3 ||| key.getD 2 0 <<< 5) % 256 ]

/-- Step 2 of `update_round_key`: substitute the high nibble of `key[9]`
through the table, keeping the low nibble. -/
def sbox_step (key : List Nat) : List Nat :=
  key.set 9 ((key.getD 9 0 &&& 0x0F) ||| (sbox.getD (key.getD 9 0 >>> 4) 0 <<< 4))

/-- Step 3 of `update_round_key`: XOR the round counter into `key[1]` (bit 7)
and `key[2]` (bits 0..3); both XOR results are truncated to bytes, and the
`uint8_t` parameter `r` is truncated before the right shift. -/
def counter_step (key : List Nat) (r : Nat) : List Nat :=
  ((key.set 1 ((key.getD 1 0 ^^^ (r <<< 7)) % 256)).set 2
    ((key.getD 2 0 ^^^ ((r % 256) >>> 1)) % 256))

/-- One key-schedule step: rotation, top-nibble substitution, counter XOR. -/
def update_round_key (key : List Nat) (r : Nat) : List Nat :=
  counter_step (sbox_step (rotate_step key)) r

/-- One iteration of the main loop of `crypto_func`: round-key addition
(with `key + 2`, i.e. bytes 2..9 of the key register), substitution,
permutation and the key-schedule step with the current counter. -/
def round_step (st : List Nat × List Nat) (i : Nat) : List Nat × List Nat :=
  (pbox_layer (sbox_layer (add_round_key st.1 (st.2.drop 2))), update_round_key st.2 i)

/-- The scalar `crypto_func`: 31 rounds with counters 1..31, then a final
round-key addition.  Returns the pair (ciphertext, final key register),
matching the in-place updates of `pt` and `key`. -/
def crypto_func (pt key : List Nat) : List Nat × List Nat :=
  let s := (List.range' 1 31).foldl round_step (pt, key)
  (add_round_key s.1 (s.2.drop 2), s.2)

end PresentScalar

namespace PresentBS

/-- `enslice` brings a normal buffer of `8 * BITSLICE_WIDTH` bytes into
bit-sliced form: register `i` collects, in lane `bit`, bit `i % 8` of byte
`i / 8 + bit * 8`. -/
def enslice (pt : List Nat) : List Nat :=
  (List.range CRYPTO_IN_SIZE_BIT).map fun i =>
    (List.range BITSLICE_WIDTH).foldl
      (fun temp bit => temp ||| (((pt.getD (i / 8 + bit * 8) 0 >>> (i % 8)) &&& 1) <<< bit))
      0

/-- `unslice` brings a bit-sliced state back into normal form: byte `i`
collects as its bit `bit` the lane `i / 8` of register `(i * 8) % 64 + bit`. -/
def unslice (state_bs : List Nat) : List Nat :=
  (List.range (CRYPTO_IN_SIZE * BITSLICE_WIDTH)).map fun i =>
    (List.range 8).foldl
      (fun temp bit =>
        temp ||| (((state_bs.getD (i * 8 % CRYPTO_IN_SIZE_BIT + bit) 0 >>> (i / 8)) &&& 1) <<< bit))
      0

/-- The all-ones 32-bit constant used to express negation. -/
def BS_INV : Nat := 0xFFFFFFFF

/-- First boolean output function of the bit-sliced substitution. -/
def sbox0 (x0 x1 x2 x3 : Nat) : Nat := x0 ^^^ (x1 &&& x2) ^^^ x2 ^^^ x3

/-- Second boolean output function of the bit-sliced substitution. -/
def sbox1 (x0 x1 x2 x3 : Nat) : Nat :=
  let c := x2 &&& x3
  ((x0 &&& x1) &&& (x2 ^^^ x3)) ^^^ (x3 &&& x1) ^^^ x1 ^^^ (x0 &&& c) ^^^ c ^^^ x3

/-- Third boolean output function of the bit-sliced substitution. -/
def sbox2 (x0 x1 x2 x3 : Nat) : Nat :=
  let c := x0 &&& x3
  (x0 &&& x1) ^^^ (c &&& x1) ^^^ (x3 &&& x1) ^^^ x2 ^^^ c ^^^ (c &&& x2) ^^^ x3 ^^^ BS_INV

/-- Fourth boolean output function of the bit-sliced substitution. -/
def sbox3 (x0 x1 x2 x3 : Nat) : Nat :=
  let c := x1 &&& x2
  (c &&& x0) ^^^ ((x3 &&& x0) &&& (x1 ^^^ x2)) ^^^ x0 ^^^ x1 ^^^ c ^^^ x3 ^^^ BS_INV

/-- Bit-sliced round-key addition: every register is XORed with all-ones or
all-zeroes according to the corresponding round-key bit. -/
def add_round_key (state_bs roundkey : List Nat) : List Nat :=
  (List.range CRYPTO_IN_SIZE_BIT).map fun bit =>
    state_bs.getD bit 0 ^^^
      (if (roundkey.getD (bit / CRYPTO_IN_SIZE) 0 >>> (bit % CRYPTO_IN_SIZE)) &&& 1 = 0
       then 0 else 0xFFFFFFFF)

/-- Bit-sliced substitution layer: sixteen groups of four consecutive
registers, each passed through the four boolean output functions. -/
def sbox_layer (state_bs : List Nat) : List Nat :=
  ((List.range 16).map fun i =>
    [ sbox0 (state_bs.getD (i * 4 + 0) 0) (state_bs.getD (i * 4 + 1) 0)
        (state_bs.getD (i * 4 + 2) 0) (state_bs.getD (i * 4 + 3) 0),
      sbox1 (state_bs.getD (i * 4 + 0) 0) (state_bs.getD (i * 4 + 1) 0)
        (state_bs.getD (i * 4 + 2) 0) (state_bs.getD (i * 4 + 3) 0),
      sbox2 (state_bs.getD (i * 4 + 0) 0) (state_bs.getD (i * 4 + 1) 0)
        (state_bs.getD (i * 4 + 2) 0) (state_bs.getD (i * 4 + 3) 0),
      sbox3 (state_bs.getD (i * 4 + 0) 0) (state_bs.getD (i * 4 + 1) 0)
        (state_bs.getD (i * 4 + 2) 0) (state_bs.getD (i * 4 + 3) 0) ]).flatten

/-- Bit-sliced permutation layer: whole registers are moved to their permuted
positions in a zeroed scratch buffer. -/
def pbox_layer (state_bs : List Nat) : List Nat :=
  (List.range CRYPTO_IN_SIZE_BIT).foldl
    (fun state_out bit => state_out.set (pboxIdx bit) (state_bs.getD bit 0))
    (List.replicate 64 0)

/-- The key-schedule step of `crypto.c`, character for character the same C
code as the scalar one (same rotation, same table, same counter XOR). -/
def update_round_key (key : List Nat) (r : Nat) : List Nat :=
  PresentScalar.update_round_key key r

/-- One iteration of the main loop of the bit-sliced `crypto_func`. -/
def round_step (st : List Nat × List Nat) (i : Nat) : List Nat × List Nat :=
  (pbox_layer (sbox_layer (add_round_key st.1 (st.2.drop 2))), update_round_key st.2 i)

/-- The bit-sliced `crypto_func`: enslice, 31 rounds with counters 1..31, a
final round-key addition, unslice.  Returns (ciphertext buffer, final key). -/
def crypto_func (pt key : List Nat) : List Nat × List Nat :=
  let state := enslice pt
  let s := (List.range' 1 31).foldl round_step (state, key)
  (unslice (add_round_key s.1 (s.2.drop 2)), s.2)

end PresentBS

/-! ## Proof-support definitions -/

/-- Value of a little-endian byte list: `key[0]` is the least significant byte. -/
def byteVal : List Nat → Nat
  | [] => 0
  | b :: t => b + 256 * byteVal t

/-- Bit `b` of a byte buffer, with byte `b / 8` holding bits `8*(b/8) .. 8*(b/8)+7`. -/
def bitOf (l : List Nat) (b : Nat) : Bool := (l.getD (b / 8) 0).testBit (b % 8)

/-- The `j`-th 8-byte block of a flat multi-block buffer. -/
def laneOf (pt : List Nat) (j : Nat) : List Nat := (pt.drop (8 * j)).take 8

/-- The nibble encoded by four bits, least significant first. -/
def nibVal (p q r s : Bool) : Nat := p.toNat + 2 * q.toNat + 4 * r.toNat + 8 * s.toNat

/-- Nibble `g` of a byte buffer: the low (`g` even) or high (`g` odd) nibble
of byte `g / 2`. -/
def nibbleAt (s : List Nat) (g : Nat) : Nat := (s.getD (g / 2) 0 >>> (4 * (g % 2))) &&& 0xF

/-- The inverse of the bit permutation `pboxIdx` on positions below 64. -/
def pboxInv (o : Nat) : Nat := o % 16 * 4 + o / 16

/-- The key register after `n` key-schedule steps with counters `1 .. n`. -/
def keyAfter (key : List Nat) : Nat → List Nat
  | 0 => key
  | n + 1 => PresentScalar.update_round_key (keyAfter key n) (n + 1)

/-- The scalar block state after `n` full rounds (round-key addition,
substitution, permutation), the key schedule running alongside. -/
def stateAfter (pt key : List Nat) : Nat → List Nat
  | 0 => pt
  | n + 1 => PresentScalar.pbox_layer (PresentScalar.sbox_layer
      (PresentScalar.add_round_key (stateAfter pt key n) ((keyAfter key n).drop 2)))

/-- The bit-sliced state after `n` full rounds, starting from an already
ensliced state. -/
def bsStateAfter (st key : List Nat) : Nat → List Nat
  | 0 => st
  | n + 1 => PresentBS.pbox_layer (PresentBS.sbox_layer
      (PresentBS.add_round_key (bsStateAfter st key n) ((keyAfter key n).drop 2)))

/-- Modelled from the spec: right rotation of an 80-bit register value by
`n` places (`n ≤ 80`). -/
def rotateRight80 (n x : Nat) : Nat := ((x >>> n) ||| (x <<< (80 - n))) % 2 ^ 80

/-- Modelled from the spec: the variant of the scalar `crypto_func` that claim
C4's words describe, mixing the LOW eight bytes `key[0..7]` (`key.take 8`) of
the key register into the state instead of the bytes `2..9` the code uses.
Used only to compare the claim against the implementation. -/
def crypto_func_lowmix (pt key : List Nat) : List Nat × List Nat :=
  let s := (List.range' 1 31).foldl
    (fun st i =>
      (PresentScalar.pbox_layer (PresentScalar.sbox_layer
        (PresentScalar.add_round_key st.1 (st.2.take 8))),
       PresentScalar.update_round_key st.2 i))
    (pt, key)
  (PresentScalar.add_round_key s.1 (s.2.take 8), s.2)

/-- Correspondence between a bit-sliced state and a family of 32 scalar
states: lane `j` of register `i` equals bit `i` of scalar state `j`. -/
def Corr (st : List Nat) (f : Nat → List Nat) : Prop :=
  ∀ i < 64, ∀ j < 32, (st.getD i 0).testBit j = bitOf (f j) i

/-- The fold computed by the scalar `pbox_layer`, cut off after the first
`n` source bits; at `n = 64` it is exactly the body of `pbox_layer`. -/
def pboxFoldAux (s : List Nat) (n : Nat) : List Nat :=
  (List.range n).foldl
    (fun state_out b =>
      state_out.set (pboxIdx b / 8)
        (PresentScalar.cpybit (state_out.getD (pboxIdx b / 8) 0) (pboxIdx b % 8)
          (PresentScalar.getbit (s.getD (b / 8) 0) (b % 8))))
    (List.replicate 8 0)

/-- The fold computed by the bit-sliced `pbox_layer`, cut off after the first
`n` registers; at `n = 64` it is exactly the body of `pbox_layer`. -/
def bsPboxFoldAux (state_bs : List Nat) (n : Nat) : List Nat :=
  (List.range n).foldl
    (fun state_out bit => state_out.set (pboxIdx bit) (state_bs.getD bit 0))
    (List.replicate 64 0)

/-! ## List and bit helper lemmas -/

theorem getD_range_map (f : Nat → Nat) (n i : Nat) :
    ((List.range n).map f).getD i 0 = if i < n then f i else 0 := by
  by_cases h : i < n
  · simp [List.getD_eq_getElem?_getD, List.getElem?_map, List.getElem?_range h, h]
  · have hlen : ((List.range n).map f).length ≤ i := by
      simpa [List.length_map, List.length_range] using Nat.le_of_not_lt h
    simp [List.getD_eq_getElem?_getD, List.getElem?_eq_none hlen, h]

theorem getD_drop (l : List Nat) (n m : Nat) : (l.drop n).getD m 0 = l.getD (n + m) 0 := by
  simp [List.getD_eq_getElem?_getD, List.getElem?_drop]

theorem getD_take (l : List Nat) (n m : Nat) (h : m < n) :
    (l.take n).getD m 0 = l.getD m 0 := by
  simp [List.getD_eq_getElem?_getD, List.getElem?_take_of_lt h]

theorem getD_set_eq (l : List Nat) (i v : Nat) (h : i < l.length) :
    (l.set i v).getD i 0 = v := by
  simp [List.getD_eq_getElem?_getD, List.getElem?_set_self h]

theorem getD_set_ne (l : List Nat) (i j v : Nat) (h : i ≠ j) :
    (l.set i v).getD j 0 = l.getD j 0 := by
  simp [List.getD_eq_getElem?_getD, List.getElem?_set_ne h]

theorem getD_lt (l : List Nat) (c : Nat) (hc : 0 < c) (h : ∀ v ∈ l, v < c) (i : Nat) :
    l.getD i 0 < c := by
  by_cases hi : i < l.length
  · rw [List.getD_eq_getElem?_getD, List.getElem?_eq_getElem hi]
    exact h _ (List.getElem_mem hi)
  · rw [List.getD_eq_getElem?_getD, List.getElem?_eq_none (Nat.le_of_not_lt hi)]
    exact hc

theorem eq_of_getD (l1 l2 : List Nat) (h : l1.length = l2.length)
    (he : ∀ i < l1.length, l1.getD i 0 = l2.getD i 0) : l1 = l2 := by
  apply List.ext_getElem h
  intro n h1 h2
  have hg := he n h1
  rwa [List.getD_eq_getElem?_getD, List.getD_eq_getElem?_getD,
    List.getElem?_eq_getElem h1, List.getElem?_eq_getElem h2] at hg

theorem self_eq_range_map_getD (l : List Nat) (w : Nat) (h : l.length = w) :
    l = (List.range w).map fun m => l.getD m 0 := by
  apply eq_of_getD
  · simp [h]
  · intro i hi
    rw [getD_range_map]
    simp [h ▸ hi]

theorem flatten_fixed (w : Nat) (hw : 0 < w) (g : Nat → List Nat)
    (hg : ∀ j, (g j).length = w) (n : Nat) :
    ((List.range n).map g).flatten =
      (List.range (w * n)).map fun k => (g (k / w)).getD (k % w) 0 := by
  induction n with
  | zero => simp
  | succ n ih =>
    rw [List.range_succ, List.map_append, List.flatten_append, ih]
    have hrange : List.range (w * (n + 1)) = List.range (w * n) ++ (List.range w).map (w * n + ·) := by
      rw [Nat.mul_succ, List.range_add]
    rw [hrange, List.map_append, List.map_map]
    simp only [List.map_cons, List.map_nil, List.flatten_cons, List.flatten_nil, List.append_nil]
    congr 1
    rw [self_eq_range_map_getD (g n) w (hg n)]
    apply List.map_congr_left
    intro m hm
    have hmw : m < w := by simpa using hm
    have hdiv : (w * n + m) / w = n := by
      rw [Nat.mul_add_div hw, Nat.div_eq_of_lt hmw, Nat.add_zero]
    have hmod : (w * n + m) % w = m := by
      rw [Nat.mul_add_mod, Nat.mod_eq_of_lt hmw]
    simp [hdiv, hmod]

theorem testBit_le_one (x k : Nat) (hx : x ≤ 1) :
    x.testBit k = (decide (k = 0) && decide (x = 1)) := by
  interval_cases x <;> cases k <;> simp [Nat.testBit_succ]

theorem foldl_or_testBit (g : Nat → Nat) (L : List Nat) (init j : Nat)
    (hg : ∀ b ∈ L, g b ≤ 1) :
    (L.foldl (fun t b => t ||| (g b <<< b)) init).testBit j =
      (init.testBit j || (decide (j ∈ L) && decide (g j = 1))) := by
  induction L generalizing init with
  | nil => simp
  | cons a L ih =>
    rw [List.foldl_cons, ih _ fun b hb => hg b (List.mem_cons_of_mem a hb)]
    rw [Nat.testBit_or, Nat.testBit_shiftLeft,
      testBit_le_one _ _ (hg a (List.mem_cons_self a L))]
    by_cases hja : j = a
    · subst hja
      by_cases hgj : g j = 1 <;> by_cases hjL : j ∈ L <;>
        simp [hgj, hjL, Bool.or_assoc]
    · have hmem : (j ∈ a :: L) ↔ (j ∈ L) := by
        constructor
        · intro h; rcases List.mem_cons.mp h with h | h
          · exact absurd h hja
          · exact h
        · exact List.mem_cons_of_mem a
      have hz : (decide (j ≥ a) && (decide (j - a = 0) && decide (g a = 1))) = false := by
        by_cases hge : j ≥ a
        · have : j - a ≠ 0 := by omega
          simp [hge, this]
        · simp [hge]
      rw [hz, Bool.or_false]
      simp only [hmem]

theorem foldl_or_lt (g : Nat → Nat) (L : List Nat) (init n : Nat)
    (hinit : init < 2 ^ n) (hL : ∀ b ∈ L, b < n) (hg : ∀ b ∈ L, g b ≤ 1) :
    L.foldl (fun t b => t ||| (g b <<< b)) init < 2 ^ n := by
  induction L generalizing init with
  | nil => exact hinit
  | cons a L ih =>
    rw [List.foldl_cons]
    refine ih _ ?_ (fun b hb => hL b (List.mem_cons_of_mem a hb))
      (fun b hb => hg b (List.mem_cons_of_mem a hb))
    apply Nat.or_lt_two_pow hinit
    calc g a <<< a = g a * 2 ^ a := Nat.shiftLeft_eq _ _
    _ ≤ 1 * 2 ^ a := Nat.mul_le_mul_right _ (hg a (List.mem_cons_self a L))
    _ = 2 ^ a := Nat.one_mul _
    _ < 2 ^ n := Nat.pow_lt_pow_right (by omega) (hL a (List.mem_cons_self a L))

theorem testBit_byteVal (l : List Nat) (hl : ∀ v ∈ l, v < 256) (t : Nat) :
    (byteVal l).testBit t = (l.getD (t / 8) 0).testBit (t % 8) := by
  induction l generalizing t with
  | nil => simp [byteVal]
  | cons b l ih =>
    have hb : b < 2 ^ 8 := hl b (List.mem_cons_self b l)
    have hval : byteVal (b :: l) = 2 ^ 8 * byteVal l + b := by
      simp [byteVal]; ring
    rw [hval, Nat.testBit_mul_pow_two_add _ hb]
    by_cases ht : t < 8
    · have h1 : t / 8 = 0 := by omega
      have h2 : t % 8 = t := by omega
      simp [ht, h1, h2]
    · have h1 : t / 8 = (t - 8) / 8 + 1 := by omega
      have h2 : t % 8 = (t - 8) % 8 := by omega
      rw [if_neg ht, ih (fun v hv => hl v (List.mem_cons_of_mem b hv)), h1, h2,
        List.getD_cons_succ]

theorem byteVal_lt (l : List Nat) (hl : ∀ v ∈ l, v < 256) :
    byteVal l < 2 ^ (8 * l.length) := by
  induction l with
  | nil => simp [byteVal]
  | cons b l ih =>
    have hb : b < 256 := hl b (List.mem_cons_self b l)
    have hr : byteVal l < 2 ^ (8 * l.length) :=
      ih fun v hv => hl v (List.mem_cons_of_mem b hv)
    have : byteVal (b :: l) = b + 256 * byteVal l := rfl
    rw [this]
    have h2 : 2 ^ (8 * (b :: l).length) = 256 * 2 ^ (8 * l.length) := by
      rw [List.length_cons]
      rw [show 8 * (l.length + 1) = 8 * l.length + 8 by ring, Nat.pow_add]
      ring
    rw [h2]
    calc b + 256 * byteVal l < 256 + 256 * byteVal l := by omega
    _ = 256 * (byteVal l + 1) := by ring
    _ ≤ 256 * 2 ^ (8 * l.length) := by
        apply Nat.mul_le_mul_left
        omega

/-! ## Decidable claims: substitution table, boolean S-box functions, permutation -/

/-- C9: the fixed 16-entry substitution table — shared by the scalar
substitution layer and by both key schedules (the `crypto.c` key schedule is
the same code) — is a permutation (bijection) of the values 0..15. -/
theorem sbox_table_is_permutation :
    (∀ a b : Fin 16, PresentScalar.sbox.getD a 0 = PresentScalar.sbox.getD b 0 → a = b) ∧
    (∀ y : Fin 16, ∃ x : Fin 16, PresentScalar.sbox.getD x 0 = y.val) ∧
    PresentScalar.sbox.length = 16 ∧ (∀ v ∈ PresentScalar.sbox, v < 16) := by
  decide

theorem sbox_table_is_permutation_witness :
    (3 : Fin 16) = 3 ∧ ∃ x : Fin 16, PresentScalar.sbox.getD x 0 = (5 : Fin 16).val :=
  ⟨sbox_table_is_permutation.1 3 3 (by decide), sbox_table_is_permutation.2.1 5⟩

/-- C3: for every 4-bit input, evaluating the four boolean functions bit by
bit — plane `i` carrying input bit `i`, output plane `i` carrying output
bit `i` — produces exactly the output nibble of the scalar table. -/
theorem bs_sbox_functions_match_table :
    ∀ x : Fin 16,
      ((PresentBS.sbox0 (PresentScalar.getbit x 0) (PresentScalar.getbit x 1)
          (PresentScalar.getbit x 2) (PresentScalar.getbit x 3)) &&& 1) |||
      (((PresentBS.sbox1 (PresentScalar.getbit x 0) (PresentScalar.getbit x 1)
          (PresentScalar.getbit x 2) (PresentScalar.getbit x 3)) &&& 1) <<< 1) |||
      (((PresentBS.sbox2 (PresentScalar.getbit x 0) (PresentScalar.getbit x 1)
          (PresentScalar.getbit x 2) (PresentScalar.getbit x 3)) &&& 1) <<< 2) |||
      (((PresentBS.sbox3 (PresentScalar.getbit x 0) (PresentScalar.getbit x 1)
          (PresentScalar.getbit x 2) (PresentScalar.getbit x 3)) &&& 1) <<< 3) =
      PresentScalar.sbox.getD x 0 := by
  decide

/-- C8: the bit permutation `b ↦ b / 4 + b % 4 * 16` applied by both
`pbox_layer` implementations is a bijection on the positions 0..63: it is
injective, every destination below 64 is reached, and it never leaves 0..63. -/
theorem pbox_permutation_bijective :
    (∀ a b : Fin 64, pboxIdx a = pboxIdx b → a = b) ∧
    (∀ d : Fin 64, ∃ b : Fin 64, pboxIdx b = d.val) ∧
    (∀ b : Fin 64, pboxIdx b < 64) := by
  decide

theorem pbox_permutation_bijective_witness :
    (7 : Fin 64) = 7 ∧ ∃ b : Fin 64, pboxIdx b = (9 : Fin 64).val :=
  ⟨pbox_permutation_bijective.1 7 7 (by decide), pbox_permutation_bijective.2.1 9⟩

/-! ## Round structure of the two crypto_func implementations -/

theorem scalar_loop_eq (pt key : List Nat) (n : Nat) :
    (List.range' 1 n).foldl PresentScalar.round_step (pt, key) =
      (stateAfter pt key n, keyAfter key n) := by
  induction n with
  | zero => rfl
  | succ n ih =>
    rw [List.range'_1_concat, List.foldl_append, ih]
    simp [PresentScalar.round_step, stateAfter, keyAfter, Nat.add_comm 1 n]

theorem bs_loop_eq (st key : List Nat) (n : Nat) :
    (List.range' 1 n).foldl PresentBS.round_step (st, key) =
      (bsStateAfter st key n, keyAfter key n) := by
  induction n with
  | zero => rfl
  | succ n ih =>
    rw [List.range'_1_concat, List.foldl_append, ih]
    simp [PresentBS.round_step, PresentBS.update_round_key, bsStateAfter, keyAfter,
      Nat.add_comm 1 n]

/-- C6: both `crypto_func` implementations perform exactly 31 iterations of
(round-key mixing, substitution layer, permutation layer, key-schedule step
with counters rising 1..31), then exactly one final round-key mixing with no
further substitution or permutation; the key buffer on exit is the initial
key advanced by exactly 31 key-schedule steps. -/
theorem crypto_func_round_structure :
    ∀ pt key : List Nat,
      PresentScalar.crypto_func pt key =
        (PresentScalar.add_round_key (stateAfter pt key 31) ((keyAfter key 31).drop 2),
         keyAfter key 31) ∧
      PresentBS.crypto_func pt key =
        (PresentBS.unslice (PresentBS.add_round_key (bsStateAfter (PresentBS.enslice pt) key 31)
            ((keyAfter key 31).drop 2)),
         keyAfter key 31) := by
  intro pt key
  constructor
  · show ((List.range' 1 31).foldl PresentScalar.round_step (pt, key) |>
      fun s => (PresentScalar.add_round_key s.1 (s.2.drop 2), s.2)) = _
    rw [scalar_loop_eq]
  · show (((List.range' 1 31).foldl PresentBS.round_step (PresentBS.enslice pt, key)) |>
      fun s => (PresentBS.unslice (PresentBS.add_round_key s.1 (s.2.drop 2)), s.2)) = _
    rw [bs_loop_eq]

/-- C10: the final key register computed by `crypto_func` depends only on the
initial key, never on the plaintext: two runs with different plaintexts but
the same key leave identical key buffers, in both implementations. -/
theorem final_key_independent_of_plaintext :
    ∀ pt1 pt2 key : List Nat,
      (PresentScalar.crypto_func pt1 key).2 = (PresentScalar.crypto_func pt2 key).2 ∧
      (PresentBS.crypto_func pt1 key).2 = (PresentBS.crypto_func pt2 key).2 := by
  intro pt1 pt2 key
  constructor
  · show ((List.range' 1 31).foldl PresentScalar.round_step (pt1, key)).2 =
      ((List.range' 1 31).foldl PresentScalar.round_step (pt2, key)).2
    rw [scalar_loop_eq, scalar_loop_eq]
  · show ((List.range' 1 31).foldl PresentBS.round_step (PresentBS.enslice pt1, key)).2 =
      ((List.range' 1 31).foldl PresentBS.round_step (PresentBS.enslice pt2, key)).2
    rw [bs_loop_eq, bs_loop_eq]

/-! ## Well-formedness of the key schedule -/

theorem sbox_getD_lt (x : Nat) : PresentScalar.sbox.getD x 0 < 16 := by
  by_cases h : x < 16
  · interval_cases x <;> decide
  · have hlen : PresentScalar.sbox.length ≤ x := by
      have h16 : PresentScalar.sbox.length = 16 := rfl
      omega
    rw [List.getD_eq_getElem?_getD, List.getElem?_eq_none hlen]
    decide

theorem or_lt_256 {x y : Nat} (hx : x < 256) (hy : y < 256) : x ||| y < 256 := by
  have h : (256 : Nat) = 2 ^ 8 := by norm_num
  rw [h] at hx hy ⊢
  exact Nat.or_lt_two_pow hx hy

theorem xor_lt_256 {x y : Nat} (hx : x < 256) (hy : y < 256) : x ^^^ y < 256 := by
  have h : (256 : Nat) = 2 ^ 8 := by norm_num
  rw [h] at hx hy ⊢
  exact Nat.xor_lt_two_pow hx hy

theorem rotate_step_wf (key : List Nat) : bytesWF (PresentScalar.rotate_step key) 10 := by
  constructor
  · rfl
  · intro v hv
    simp only [PresentScalar.rotate_step, List.mem_cons, List.not_mem_nil, or_false] at hv
    rcases hv with h | h | h | h | h | h | h | h | h | h <;> subst h <;>
      exact Nat.mod_lt _ (by norm_num)

theorem sbox_step_wf (key : List Nat) (h : bytesWF key 10) :
    bytesWF (PresentScalar.sbox_step key) 10 := by
  obtain ⟨hlen, hmem⟩ := h
  constructor
  · simp [PresentScalar.sbox_step, hlen]
  · intro v hv
    rcases List.mem_or_eq_of_mem_set hv with hv1 | hv1
    · exact hmem v hv1
    · subst hv1
      apply or_lt_256
      · have := Nat.and_le_right (n := key.getD 9 0) (m := 0x0F)
        omega
      · have hs := sbox_getD_lt (key.getD 9 0 >>> 4)
        rw [Nat.shiftLeft_eq]
        calc PresentScalar.sbox.getD (key.getD 9 0 >>> 4) 0 * 2 ^ 4
            ≤ 15 * 2 ^ 4 := Nat.mul_le_mul_right _ (by omega)
        _ < 256 := by norm_num

theorem counter_step_wf (key : List Nat) (r : Nat) (h : bytesWF key 10) :
    bytesWF (PresentScalar.counter_step key r) 10 := by
  obtain ⟨hlen, hmem⟩ := h
  constructor
  · simp [PresentScalar.counter_step, hlen]
  · intro v hv
    unfold PresentScalar.counter_step at hv
    rcases List.mem_or_eq_of_mem_set hv with hv1 | hv1
    · rcases List.mem_or_eq_of_mem_set hv1 with hv2 | hv2
      · exact hmem v hv2
      · subst hv2; exact Nat.mod_lt _ (by norm_num)
    · subst hv1; exact Nat.mod_lt _ (by norm_num)

theorem update_round_key_wf (key : List Nat) (r : Nat) :
    bytesWF (PresentScalar.update_round_key key r) 10 :=
  counter_step_wf _ _ (sbox_step_wf _ (rotate_step_wf key))

theorem keyAfter_wf (key : List Nat) (h : bytesWF key 10) (n : Nat) :
    bytesWF (keyAfter key n) 10 := by
  cases n with
  | zero => exact h
  | succ n => exact update_round_key_wf _ _

/-! ## C5: the key-schedule rotation -/

theorem rotate_step_getD (key : List Nat) (i : Nat) (hi : i < 10) :
    (PresentScalar.rotate_step key).getD i 0 =
      (key.getD ((i + 2) % 10) 0 >>> 3 ||| key.getD ((i + 3) % 10) 0 <<< 5) % 256 := by
  interval_cases i <;> rfl

theorem rotByte_testBit (a b m : Nat) (ha : a < 256) (hb : b < 256) (hm : m < 8) :
    ((a >>> 3 ||| b <<< 5) % 256).testBit m =
      if m < 5 then a.testBit (m + 3) else b.testBit (m - 5) := by
  have h256 : (256 : Nat) = 2 ^ 8 := by norm_num
  rw [h256, Nat.testBit_mod_two_pow]
  simp only [Nat.testBit_or, Nat.testBit_shiftRight, Nat.testBit_shiftLeft]
  by_cases h5 : m < 5
  · have hge : ¬ (m ≥ 5) := by omega
    simp [hm, hge, h5, Nat.add_comm 3 m]
  · have hge : m ≥ 5 := by omega
    have ha3 : a.testBit (3 + m) = false := by
      apply Nat.testBit_lt_two_pow
      calc a < 256 := ha
      _ = 2 ^ 8 := by norm_num
      _ ≤ 2 ^ (3 + m) := Nat.pow_le_pow_right (by omega) (by omega)
    simp [hm, hge, h5, ha3]

theorem rotateRight80_testBit (n x t : Nat) (hn : 0 < n) (hn80 : n < 80)
    (hx : x < 2 ^ 80) (ht : t < 80) :
    (rotateRight80 n x).testBit t = x.testBit ((t + n) % 80) := by
  unfold rotateRight80
  rw [Nat.testBit_mod_two_pow]
  simp only [Nat.testBit_or, Nat.testBit_shiftRight, Nat.testBit_shiftLeft]
  by_cases hcase : t < 80 - n
  · have hge : ¬ (t ≥ 80 - n) := by omega
    have hmod : (t + n) % 80 = n + t := by omega
    simp [ht, hge, hmod]
  · have hge : t ≥ 80 - n := by omega
    have hhigh : x.testBit (n + t) = false := by
      apply Nat.testBit_lt_two_pow
      calc x < 2 ^ 80 := hx
      _ ≤ 2 ^ (n + t) := Nat.pow_le_pow_right (by omega) (by omega)
    have hmod : (t + n) % 80 = t - (80 - n) := by omega
    simp [ht, hge, hhigh, hmod]

/-- C5 (counterexample): step 1 of `update_round_key` does not rotate the
80-bit register right by 61 places: on the register with value 1 it produces
`2 ^ 61`, not `2 ^ 19`. -/
theorem rotate_step_not_rotateRight61 :
    byteVal (PresentScalar.rotate_step [1, 0, 0, 0, 0, 0, 0, 0, 0, 0]) ≠
      rotateRight80 61 (byteVal [1, 0, 0, 0, 0, 0, 0, 0, 0, 0]) := by
  decide

/-- C5 (amended): step 1 of `update_round_key` rotates the 80-bit key register
(`key[0]` least significant byte, `key[9]` most significant) right by 19 bit
places — equivalently left by 61 — before the top-nibble substitution and the
counter XOR. -/
theorem rotate_step_is_rotateRight19 :
    ∀ key : List Nat, bytesWF key 10 →
      byteVal (PresentScalar.rotate_step key) = rotateRight80 19 (byteVal key) := by
  intro key hk
  obtain ⟨hlen, hmem⟩ := hk
  have hkv : byteVal key < 2 ^ 80 := by
    have h := byteVal_lt key hmem
    rw [hlen] at h
    simpa using h
  have hrotwf := rotate_step_wf key
  apply Nat.eq_of_testBit_eq
  intro t
  by_cases ht : t < 80
  · have hA : key.getD ((t / 8 + 2) % 10) 0 < 256 := getD_lt key 256 (by norm_num) hmem _
    have hB : key.getD ((t / 8 + 3) % 10) 0 < 256 := getD_lt key 256 (by norm_num) hmem _
    rw [testBit_byteVal _ hrotwf.2, rotate_step_getD key (t / 8) (by omega),
      rotByte_testBit _ _ (t % 8) hA hB (by omega),
      rotateRight80_testBit 19 _ t (by omega) (by omega) hkv ht,
      testBit_byteVal _ hmem]
    by_cases h5 : t % 8 < 5
    · rw [if_pos h5, show (t + 19) % 80 / 8 = (t / 8 + 2) % 10 from by omega,
        show (t + 19) % 80 % 8 = t % 8 + 3 from by omega]
    · rw [if_neg h5, show (t + 19) % 80 / 8 = (t / 8 + 3) % 10 from by omega,
        show (t + 19) % 80 % 8 = t % 8 - 5 from by omega]
  · have h1 : byteVal (PresentScalar.rotate_step key) < 2 ^ 80 := by
      have h := byteVal_lt _ hrotwf.2
      rw [hrotwf.1] at h
      simpa using h
    have h2 : rotateRight80 19 (byteVal key) < 2 ^ 80 :=
      Nat.mod_lt _ (by positivity)
    rw [Nat.testBit_lt_two_pow (by
        calc byteVal (PresentScalar.rotate_step key) < 2 ^ 80 := h1
        _ ≤ 2 ^ t := Nat.pow_le_pow_right (by omega) (by omega)),
      Nat.testBit_lt_two_pow (by
        calc rotateRight80 19 (byteVal key) < 2 ^ 80 := h2
        _ ≤ 2 ^ t := Nat.pow_le_pow_right (by omega) (by omega))]

theorem rotate_step_is_rotateRight19_witness :
    byteVal (PresentScalar.rotate_step [1, 2, 3, 4, 5, 6, 7, 8, 9, 10]) =
      rotateRight80 19 (byteVal [1, 2, 3, 4, 5, 6, 7, 8, 9, 10]) :=
  rotate_step_is_rotateRight19 _ (by decide)

/-! ## C7: the round-counter XOR -/

/-- C7: step 3 of `update_round_key`, for a round counter r in [1,31], XORs
counter bit `k` into register bit `15 + k` (bits 19..15 of the 80-bit
register) and changes no other register bit. -/
theorem counter_step_xors_bits_15_19 :
    ∀ (key : List Nat) (r t : Nat), bytesWF key 10 → 1 ≤ r → r ≤ 31 → t < 80 →
      (byteVal (PresentScalar.counter_step key r)).testBit t =
        xor ((byteVal key).testBit t)
          (decide (15 ≤ t ∧ t ≤ 19) && r.testBit (t - 15)) := by
  intro key r t hk hr1 hr2 ht
  obtain ⟨hlen, hmem⟩ := hk
  have hcswf := counter_step_wf key r ⟨hlen, hmem⟩
  rw [testBit_byteVal _ hcswf.2, testBit_byteVal _ hmem]
  have h256 : (256 : Nat) = 2 ^ 8 := by norm_num
  unfold PresentScalar.counter_step
  by_cases h2 : t / 8 = 2
  · rw [h2, getD_set_eq _ 2 _ (by simp [hlen]),
      Nat.mod_eq_of_lt (show r < 256 by omega), h256, Nat.testBit_mod_two_pow,
      Nat.testBit_xor, Nat.testBit_shiftRight]
    rw [show decide (t % 8 < 8) = true from by apply decide_eq_true; omega, Bool.true_and]
    congr 1
    by_cases hm : t % 8 ≤ 3
    · rw [show decide (15 ≤ t ∧ t ≤ 19) = true from by
        apply decide_eq_true; omega, Bool.true_and,
        show t - 15 = 1 + t % 8 from by omega]
    · have hbit : r.testBit (1 + t % 8) = false := by
        apply Nat.testBit_lt_two_pow
        calc r < 2 ^ 5 := by omega
        _ ≤ 2 ^ (1 + t % 8) := Nat.pow_le_pow_right (by omega) (by omega)
      rw [hbit, show decide (15 ≤ t ∧ t ≤ 19) = false from by
        apply decide_eq_false; omega, Bool.false_and]
  · by_cases h1 : t / 8 = 1
    · rw [h1, getD_set_ne _ 2 1 _ (by omega), getD_set_eq _ 1 _ (by simp [hlen]),
        h256, Nat.testBit_mod_two_pow, Nat.testBit_xor, Nat.testBit_shiftLeft]
      rw [show decide (t % 8 < 8) = true from by apply decide_eq_true; omega, Bool.true_and]
      congr 1
      by_cases hm : t % 8 = 7
      · rw [hm, show decide (15 ≤ t ∧ t ≤ 19) = true from by
          apply decide_eq_true; omega,
          show (7 : Nat) - 7 = 0 from rfl,
          show t - 15 = 0 from by omega, Bool.true_and,
          show decide ((7 : Nat) ≥ 7) = true from by decide, Bool.true_and]
      · rw [show decide (t % 8 ≥ 7) = false from by apply decide_eq_false; omega,
          Bool.false_and,
          show decide (15 ≤ t ∧ t ≤ 19) = false from by apply decide_eq_false; omega,
          Bool.false_and]
    · rw [getD_set_ne _ 2 (t / 8) _ (by omega), getD_set_ne _ 1 (t / 8) _ (by omega),
        show decide (15 ≤ t ∧ t ≤ 19) = false from by apply decide_eq_false; omega,
        Bool.false_and, Bool.xor_false]

theorem counter_step_xors_bits_15_19_witness :
    (byteVal (PresentScalar.counter_step [10, 20, 30, 40, 50, 60, 70, 80, 90, 100] 5)).testBit 17 =
      xor ((byteVal [10, 20, 30, 40, 50, 60, 70, 80, 90, 100]).testBit 17)
        (decide (15 ≤ 17 ∧ 17 ≤ 19) && (5 : Nat).testBit (17 - 15)) :=
  counter_step_xors_bits_15_19 _ _ _ (by decide) (by decide) (by decide) (by decide)

/-! ## C4: which key bits are mixed into the state -/

theorem add_round_key_bit (pt rk : List Nat) (b : Nat) (hb : b < 64) :
    bitOf (PresentScalar.add_round_key pt rk) b = xor (bitOf pt b) (bitOf rk b) := by
  unfold bitOf PresentScalar.add_round_key
  rw [getD_range_map, if_pos (show b / 8 < CRYPTO_IN_SIZE from by
    have : CRYPTO_IN_SIZE = 8 := rfl
    omega)]
  exact Nat.testBit_xor _ _ _

set_option maxRecDepth 100000 in
/-- C4 (counterexample): the scalar `crypto_func` does not mix the low 8 bytes
of the key register into the state: it differs from the variant that does
(`crypto_func_lowmix`) already on the key `FF FF 00 .. 00` with zero
plaintext. -/
theorem crypto_func_mixes_high_not_low_bytes :
    PresentScalar.crypto_func (List.replicate 8 0) [255, 255, 0, 0, 0, 0, 0, 0, 0, 0] ≠
      crypto_func_lowmix (List.replicate 8 0) [255, 255, 0, 0, 0, 0, 0, 0, 0, 0] := by
  decide

/-- C4 (amended): in every round of the scalar `crypto_func` — the mixing that
opens round `n + 1` operates on `stateAfter n` with register `keyAfter n`, and
`n = 31` is the final whitening — the 64 bits XORed into the block state are
bits 16..79 of the 80-bit key register at the time of mixing: the round key is
the HIGH 8 bytes (bytes 2..9) of the 10-byte register, whose most significant
byte `key[9]` is the one the key schedule substitutes. -/
theorem round_key_is_high_64_bits :
    ∀ (pt key : List Nat) (n b : Nat), bytesWF key 10 → b < 64 →
      bitOf (PresentScalar.add_round_key (stateAfter pt key n) ((keyAfter key n).drop 2)) b =
        xor (bitOf (stateAfter pt key n) b)
          ((byteVal (keyAfter key n)).testBit (16 + b)) := by
  intro pt key n b hk hb
  rw [add_round_key_bit _ _ b hb]
  have hkn := keyAfter_wf key hk n
  rw [testBit_byteVal _ hkn.2]
  unfold bitOf
  rw [getD_drop, show (16 + b) / 8 = 2 + b / 8 from by omega,
    show (16 + b) % 8 = b % 8 from by omega]

theorem round_key_is_high_64_bits_witness :
    bitOf (PresentScalar.add_round_key (stateAfter (List.replicate 8 0) (List.replicate 10 7) 2)
        ((keyAfter (List.replicate 10 7) 2).drop 2)) 5 =
      xor (bitOf (stateAfter (List.replicate 8 0) (List.replicate 10 7) 2) 5)
        ((byteVal (keyAfter (List.replicate 10 7) 2)).testBit (16 + 5)) :=
  round_key_is_high_64_bits _ _ 2 5 (by decide) (by decide)

/-! ## C2: the bit transpose and its inverse -/

theorem shift_and_one (v s : Nat) : decide ((v >>> s) &&& 1 = 1) = v.testBit s := by
  rw [Nat.and_one_is_mod, Nat.shiftRight_eq_div_pow, Nat.testBit_to_div_mod]

theorem enslice_getD_testBit (pt : List Nat) (i : Nat) (hi : i < 64) (j : Nat) :
    ((PresentBS.enslice pt).getD i 0).testBit j =
      (decide (j < 32) && (pt.getD (i / 8 + j * 8) 0).testBit (i % 8)) := by
  unfold PresentBS.enslice
  rw [getD_range_map, if_pos (show i < CRYPTO_IN_SIZE_BIT from by
    have h64 : CRYPTO_IN_SIZE_BIT = 64 := rfl
    omega)]
  rw [foldl_or_testBit _ _ _ _ (fun b _ => by rw [Nat.and_one_is_mod]; omega)]
  rw [Nat.zero_testBit, Bool.false_or]
  have hmem : (j ∈ List.range BITSLICE_WIDTH) ↔ j < 32 := List.mem_range
  by_cases hj : j < 32
  · rw [decide_eq_true (hmem.mpr hj), decide_eq_true hj, Bool.true_and, Bool.true_and,
      shift_and_one]
  · rw [decide_eq_false (fun hc => hj (hmem.mp hc)), decide_eq_false hj,
      Bool.false_and, Bool.false_and]

theorem unslice_getD_testBit (st : List Nat) (k : Nat) (hk : k < 256) (m : Nat) :
    ((PresentBS.unslice st).getD k 0).testBit m =
      (decide (m < 8) && (st.getD (8 * (k % 8) + m) 0).testBit (k / 8)) := by
  unfold PresentBS.unslice
  rw [getD_range_map, if_pos (show k < CRYPTO_IN_SIZE * BITSLICE_WIDTH from by
    have h256 : CRYPTO_IN_SIZE * BITSLICE_WIDTH = 256 := rfl
    omega)]
  rw [foldl_or_testBit _ _ _ _ (fun b _ => by rw [Nat.and_one_is_mod]; omega)]
  rw [Nat.zero_testBit, Bool.false_or]
  have hmem : (m ∈ List.range 8) ↔ m < 8 := List.mem_range
  have hidx : k * 8 % CRYPTO_IN_SIZE_BIT + m = 8 * (k % 8) + m := by
    rw [show CRYPTO_IN_SIZE_BIT = 64 from rfl]
    omega
  by_cases hm : m < 8
  · rw [decide_eq_true (hmem.mpr hm), decide_eq_true hm, Bool.true_and, Bool.true_and,
      hidx, shift_and_one]
  · rw [decide_eq_false (fun hc => hm (hmem.mp hc)), decide_eq_false hm,
      Bool.false_and, Bool.false_and]

theorem enslice_getD_lt (pt : List Nat) (i : Nat) :
    (PresentBS.enslice pt).getD i 0 < 2 ^ 32 := by
  unfold PresentBS.enslice
  rw [getD_range_map]
  by_cases hi : i < CRYPTO_IN_SIZE_BIT
  · rw [if_pos hi]
    apply foldl_or_lt _ _ _ 32 (by norm_num)
      (fun b hb => by
        have : b < BITSLICE_WIDTH := List.mem_range.mp hb
        have h32 : BITSLICE_WIDTH = 32 := rfl
        omega)
      (fun b _ => by rw [Nat.and_one_is_mod]; omega)
  · rw [if_neg hi]; positivity

theorem unslice_getD_lt (st : List Nat) (k : Nat) :
    (PresentBS.unslice st).getD k 0 < 256 := by
  have h256 : (256 : Nat) = 2 ^ 8 := by norm_num
  unfold PresentBS.unslice
  rw [getD_range_map]
  by_cases hk : k < CRYPTO_IN_SIZE * BITSLICE_WIDTH
  · rw [if_pos hk, h256]
    apply foldl_or_lt _ _ _ 8 (by norm_num)
      (fun b hb => List.mem_range.mp hb)
      (fun b _ => by rw [Nat.and_one_is_mod]; omega)
  · rw [if_neg hk]; positivity

/-- C2: the bit transpose is lossless and exactly invertible — `unslice`
after `enslice` is the identity on every well-formed byte buffer of length
`8 * BITSLICE_WIDTH`, and `enslice` after `unslice` is the identity on every
well-formed array of 64 bit planes. -/
theorem transpose_round_trip :
    (∀ x : List Nat, bytesWF x (8 * BITSLICE_WIDTH) →
        PresentBS.unslice (PresentBS.enslice x) = x) ∧
    (∀ y : List Nat, wordsWF y CRYPTO_IN_SIZE_BIT →
        PresentBS.enslice (PresentBS.unslice y) = y) := by
  constructor
  · intro x hx
    obtain ⟨hlen, hmem⟩ := hx
    have hlen' : x.length = 256 := by
      have h : 8 * BITSLICE_WIDTH = 256 := rfl
      omega
    apply eq_of_getD
    · simp only [PresentBS.unslice, List.length_map, List.length_range, hlen']
      rfl
    · intro k hk
      have hk' : k < 256 := by
        have h := hk
        simp only [PresentBS.unslice, List.length_map, List.length_range] at h
        exact h
      apply Nat.eq_of_testBit_eq
      intro m
      by_cases hm : m < 8
      · rw [unslice_getD_testBit _ _ hk', decide_eq_true hm, Bool.true_and,
          enslice_getD_testBit _ _ (by omega),
          decide_eq_true (show k / 8 < 32 by omega), Bool.true_and,
          show (8 * (k % 8) + m) / 8 + k / 8 * 8 = k from by omega,
          show (8 * (k % 8) + m) % 8 = m from by omega]
      · rw [Nat.testBit_lt_two_pow (by
            calc (PresentBS.unslice (PresentBS.enslice x)).getD k 0 < 256 :=
              unslice_getD_lt _ _
            _ = 2 ^ 8 := by norm_num
            _ ≤ 2 ^ m := Nat.pow_le_pow_right (by omega) (by omega)),
          Nat.testBit_lt_two_pow (by
            calc x.getD k 0 < 256 := getD_lt x 256 (by norm_num) hmem k
            _ = 2 ^ 8 := by norm_num
            _ ≤ 2 ^ m := Nat.pow_le_pow_right (by omega) (by omega))]
  · intro y hy
    obtain ⟨hlen, hmem⟩ := hy
    apply eq_of_getD
    · simp only [PresentBS.enslice, List.length_map, List.length_range]
      have h : CRYPTO_IN_SIZE_BIT = 64 := rfl
      omega
    · intro i hi
      have hi' : i < 64 := by
        have h := hi
        simp only [PresentBS.enslice, List.length_map, List.length_range] at h
        exact h
      apply Nat.eq_of_testBit_eq
      intro j
      by_cases hj : j < 32
      · rw [enslice_getD_testBit _ _ hi', decide_eq_true hj, Bool.true_and,
          unslice_getD_testBit _ _ (by omega),
          decide_eq_true (show i % 8 < 8 by omega), Bool.true_and,
          show 8 * ((i / 8 + j * 8) % 8) + i % 8 = i from by omega,
          show (i / 8 + j * 8) / 8 = j from by omega]
      · rw [Nat.testBit_lt_two_pow (by
            calc (PresentBS.enslice (PresentBS.unslice y)).getD i 0 < 2 ^ 32 :=
              enslice_getD_lt _ _
            _ ≤ 2 ^ j := Nat.pow_le_pow_right (by omega) (by omega)),
          Nat.testBit_lt_two_pow (by
            calc y.getD i 0 < 2 ^ 32 := getD_lt y (2 ^ 32) (by positivity) hmem i
            _ ≤ 2 ^ j := Nat.pow_le_pow_right (by omega) (by omega))]

set_option maxRecDepth 100000 in
theorem transpose_round_trip_witness :
    PresentBS.unslice (PresentBS.enslice (List.replicate 256 7)) = List.replicate 256 7 ∧
    PresentBS.enslice (PresentBS.unslice (List.replicate 64 5)) = List.replicate 64 5 :=
  ⟨transpose_round_trip.1 _ (by decide), transpose_round_trip.2 _ (by decide)⟩

/-! ## C1: bit-sliced refinement of the scalar transform — round-key addition -/

theorem bs_add_round_key_bit (st rk : List Nat) (i : Nat) (hi : i < 64) (j : Nat) (hj : j < 32) :
    ((PresentBS.add_round_key st rk).getD i 0).testBit j =
      xor ((st.getD i 0).testBit j) (bitOf rk i) := by
  unfold PresentBS.add_round_key
  rw [getD_range_map, if_pos (show i < CRYPTO_IN_SIZE_BIT from by
    rw [show CRYPTO_IN_SIZE_BIT = 64 from rfl]; omega)]
  rw [show CRYPTO_IN_SIZE = 8 from rfl]
  by_cases h0 : (rk.getD (i / 8) 0 >>> (i % 8)) &&& 1 = 0
  · rw [if_pos h0, Nat.xor_zero]
    have hb : bitOf rk i = false := by
      unfold bitOf
      rw [← shift_and_one, h0]
      rfl
    rw [hb, Bool.xor_false]
  · rw [if_neg h0]
    have hb : bitOf rk i = true := by
      unfold bitOf
      rw [← shift_and_one]
      have hle : (rk.getD (i / 8) 0 >>> (i % 8)) &&& 1 ≤ 1 := by
        rw [Nat.and_one_is_mod]; omega
      have h1 : (rk.getD (i / 8) 0 >>> (i % 8)) &&& 1 = 1 := by omega
      rw [h1]
      rfl
    rw [hb, Nat.testBit_xor]
    have hinv : (0xFFFFFFFF : Nat).testBit j = true := by
      rw [show (0xFFFFFFFF : Nat) = 2 ^ 32 - 1 from by norm_num, Nat.testBit_two_pow_sub_one]
      simpa using hj
    rw [hinv, Bool.xor_true]

theorem enslice_corr (pt : List Nat) : Corr (PresentBS.enslice pt) (laneOf pt) := by
  intro i hi j hj
  rw [enslice_getD_testBit pt i hi j, decide_eq_true hj, Bool.true_and]
  unfold bitOf laneOf
  rw [getD_take _ _ _ (show i / 8 < 8 by omega), getD_drop,
    show 8 * j + i / 8 = i / 8 + j * 8 by omega]

theorem ark_corr (st : List Nat) (f : Nat → List Nat) (rk : List Nat) (h : Corr st f) :
    Corr (PresentBS.add_round_key st rk) (fun j => PresentScalar.add_round_key (f j) rk) := by
  intro i hi j hj
  rw [bs_add_round_key_bit st rk i hi j hj, h i hi j hj]
  exact (add_round_key_bit (f j) rk i hi).symm

/-! ## C1: the substitution-layer correspondence -/

theorem nibbleAt_testBit (s : List Nat) (g k : Nat) (hk : k < 4) :
    (nibbleAt s g).testBit k = bitOf s (g * 4 + k) := by
  unfold nibbleAt bitOf
  rw [show (0xF : Nat) = 2 ^ 4 - 1 from by norm_num, Nat.testBit_and,
    Nat.testBit_two_pow_sub_one, Nat.testBit_shiftRight,
    decide_eq_true hk, Bool.and_true]
  rw [show (g * 4 + k) / 8 = g / 2 from by omega,
    show (g * 4 + k) % 8 = 4 * (g % 2) + k from by omega]

theorem nibbleAt_lt (s : List Nat) (g : Nat) : nibbleAt s g < 16 := by
  unfold nibbleAt
  have h := Nat.and_le_right (n := s.getD (g / 2) 0 >>> (4 * (g % 2))) (m := 0xF)
  omega

theorem nibVal_testBit (w : Nat) (hw : w < 16) :
    nibVal (w.testBit 0) (w.testBit 1) (w.testBit 2) (w.testBit 3) = w := by
  interval_cases w <;> decide

theorem sbox_planes_bit (a b c d : Nat) (j : Nat) (hj : j < 32) :
    ((PresentBS.sbox0 a b c d).testBit j =
      (PresentScalar.sbox.getD
        (nibVal (a.testBit j) (b.testBit j) (c.testBit j) (d.testBit j)) 0).testBit 0) ∧
    ((PresentBS.sbox1 a b c d).testBit j =
      (PresentScalar.sbox.getD
        (nibVal (a.testBit j) (b.testBit j) (c.testBit j) (d.testBit j)) 0).testBit 1) ∧
    ((PresentBS.sbox2 a b c d).testBit j =
      (PresentScalar.sbox.getD
        (nibVal (a.testBit j) (b.testBit j) (c.testBit j) (d.testBit j)) 0).testBit 2) ∧
    ((PresentBS.sbox3 a b c d).testBit j =
      (PresentScalar.sbox.getD
        (nibVal (a.testBit j) (b.testBit j) (c.testBit j) (d.testBit j)) 0).testBit 3) := by
  have hinv : PresentBS.BS_INV.testBit j = true := by
    rw [show PresentBS.BS_INV = 2 ^ 32 - 1 from by norm_num [PresentBS.BS_INV],
      Nat.testBit_two_pow_sub_one]
    simpa using hj
  simp only [PresentBS.sbox0, PresentBS.sbox1, PresentBS.sbox2, PresentBS.sbox3,
    Nat.testBit_xor, Nat.testBit_and, hinv]
  generalize a.testBit j = p
  generalize b.testBit j = q
  generalize c.testBit j = r
  generalize d.testBit j = t
  revert p q r t
  decide

theorem bs_sbox_layer_getD (st : List Nat) (i : Nat) (hi : i < 64) :
    (PresentBS.sbox_layer st).getD i 0 =
      [PresentBS.sbox0 (st.getD (i / 4 * 4 + 0) 0) (st.getD (i / 4 * 4 + 1) 0)
         (st.getD (i / 4 * 4 + 2) 0) (st.getD (i / 4 * 4 + 3) 0),
       PresentBS.sbox1 (st.getD (i / 4 * 4 + 0) 0) (st.getD (i / 4 * 4 + 1) 0)
         (st.getD (i / 4 * 4 + 2) 0) (st.getD (i / 4 * 4 + 3) 0),
       PresentBS.sbox2 (st.getD (i / 4 * 4 + 0) 0) (st.getD (i / 4 * 4 + 1) 0)
         (st.getD (i / 4 * 4 + 2) 0) (st.getD (i / 4 * 4 + 3) 0),
       PresentBS.sbox3 (st.getD (i / 4 * 4 + 0) 0) (st.getD (i / 4 * 4 + 1) 0)
         (st.getD (i / 4 * 4 + 2) 0) (st.getD (i / 4 * 4 + 3) 0)].getD (i % 4) 0 := by
  unfold PresentBS.sbox_layer
  rw [flatten_fixed 4 (by norm_num)
    (fun i => [PresentBS.sbox0 (st.getD (i * 4 + 0) 0) (st.getD (i * 4 + 1) 0)
         (st.getD (i * 4 + 2) 0) (st.getD (i * 4 + 3) 0),
       PresentBS.sbox1 (st.getD (i * 4 + 0) 0) (st.getD (i * 4 + 1) 0)
         (st.getD (i * 4 + 2) 0) (st.getD (i * 4 + 3) 0),
       PresentBS.sbox2 (st.getD (i * 4 + 0) 0) (st.getD (i * 4 + 1) 0)
         (st.getD (i * 4 + 2) 0) (st.getD (i * 4 + 3) 0),
       PresentBS.sbox3 (st.getD (i * 4 + 0) 0) (st.getD (i * 4 + 1) 0)
         (st.getD (i * 4 + 2) 0) (st.getD (i * 4 + 3) 0)])
    (fun j => rfl) 16]
  rw [getD_range_map, if_pos (show i < 4 * 16 by omega)]

theorem scalar_sbox_bit (s : List Nat) (hs : ∀ v ∈ s, v < 256) (i : Nat) (hi : i < 64) :
    bitOf (PresentScalar.sbox_layer s) i =
      (PresentScalar.sbox.getD (nibbleAt s (i / 4)) 0).testBit (i % 4) := by
  unfold bitOf PresentScalar.sbox_layer
  rw [getD_range_map, if_pos (show i / 8 < CRYPTO_IN_SIZE from by
    rw [show CRYPTO_IN_SIZE = 8 from rfl]; omega)]
  rw [Nat.testBit_or, Nat.testBit_shiftLeft]
  have hv : s.getD (i / 8) 0 < 256 := getD_lt s 256 (by norm_num) hs _
  by_cases hm : i % 8 < 4
  · rw [decide_eq_false (show ¬ (i % 8 ≥ 4) from by omega), Bool.false_and, Bool.or_false]
    have hnib : nibbleAt s (i / 4) = s.getD (i / 8) 0 &&& 0xF := by
      unfold nibbleAt
      rw [show i / 4 / 2 = i / 8 from by omega, show i / 4 % 2 = 0 from by omega]
      simp
    rw [hnib, show i % 4 = i % 8 from by omega]
  · rw [decide_eq_true (show i % 8 ≥ 4 from by omega), Bool.true_and]
    have hlow : (PresentScalar.sbox.getD (s.getD (i / 8) 0 &&& 0xF) 0).testBit (i % 8) = false := by
      apply Nat.testBit_lt_two_pow
      calc PresentScalar.sbox.getD (s.getD (i / 8) 0 &&& 0xF) 0 < 16 := sbox_getD_lt _
      _ = 2 ^ 4 := by norm_num
      _ ≤ 2 ^ (i % 8) := Nat.pow_le_pow_right (by omega) (by omega)
    rw [hlow, Bool.false_or]
    have hnib : nibbleAt s (i / 4) = s.getD (i / 8) 0 >>> 4 := by
      unfold nibbleAt
      rw [show i / 4 / 2 = i / 8 from by omega, show i / 4 % 2 = 1 from by omega,
        show 4 * 1 = 4 from rfl,
        show (0xF : Nat) = 2 ^ 4 - 1 from by norm_num]
      apply Nat.and_pow_two_sub_one_of_lt_two_pow
      rw [Nat.shiftRight_eq_div_pow]
      omega
    rw [hnib, show i % 4 = i % 8 - 4 from by omega]

theorem sbox_corr (st : List Nat) (f : Nat → List Nat) (h : Corr st f)
    (hw : ∀ j, j < 32 → ∀ v ∈ f j, v < 256) :
    Corr (PresentBS.sbox_layer st) (fun j => PresentScalar.sbox_layer (f j)) := by
  intro i hi j hj
  rw [bs_sbox_layer_getD st i hi]
  show _ = bitOf (PresentScalar.sbox_layer (f j)) i
  rw [scalar_sbox_bit (f j) (hw j hj) i hi]
  have hnib : nibbleAt (f j) (i / 4) =
      nibVal ((st.getD (i / 4 * 4 + 0) 0).testBit j) ((st.getD (i / 4 * 4 + 1) 0).testBit j)
        ((st.getD (i / 4 * 4 + 2) 0).testBit j) ((st.getD (i / 4 * 4 + 3) 0).testBit j) := by
    rw [h (i / 4 * 4 + 0) (by omega) j hj, h (i / 4 * 4 + 1) (by omega) j hj,
      h (i / 4 * 4 + 2) (by omega) j hj, h (i / 4 * 4 + 3) (by omega) j hj]
    rw [← nibbleAt_testBit (f j) (i / 4) 0 (by omega),
      ← nibbleAt_testBit (f j) (i / 4) 1 (by omega),
      ← nibbleAt_testBit (f j) (i / 4) 2 (by omega),
      ← nibbleAt_testBit (f j) (i / 4) 3 (by omega)]
    exact (nibVal_testBit _ (nibbleAt_lt _ _)).symm
  rw [hnib]
  obtain ⟨hsb0, hsb1, hsb2, hsb3⟩ := sbox_planes_bit (st.getD (i / 4 * 4 + 0) 0)
    (st.getD (i / 4 * 4 + 1) 0) (st.getD (i / 4 * 4 + 2) 0) (st.getD (i / 4 * 4 + 3) 0) j hj
  have ho : i % 4 = 0 ∨ i % 4 = 1 ∨ i % 4 = 2 ∨ i % 4 = 3 := by omega
  rcases ho with ho | ho | ho | ho <;> rw [ho] <;>
    simp only [List.getD_cons_zero, List.getD_cons_succ]
  · exact hsb0
  · exact hsb1
  · exact hsb2
  · exact hsb3

/-! ## C1: the permutation-layer correspondence -/

theorem replicate_getD (q : Nat) : (List.replicate 8 (0 : Nat)).getD q 0 = 0 := by
  rw [List.getD_eq_getElem?_getD, List.getElem?_replicate]
  split <;> rfl

theorem pbox_layer_eq_aux (s : List Nat) :
    PresentScalar.pbox_layer s = pboxFoldAux s 64 := rfl

theorem getbit_le_one (v b : Nat) : PresentScalar.getbit v b ≤ 1 := by
  unfold PresentScalar.getbit
  rw [Nat.and_one_is_mod]
  omega

theorem getbit_eq_one (v b : Nat) :
    decide (PresentScalar.getbit v b = 1) = v.testBit b := by
  unfold PresentScalar.getbit
  exact shift_and_one v b

theorem testBit_cpybit (v bit bitv m : Nat) (hb : bit < 8) (hm : m < 8) (hx : bitv ≤ 1) :
    (PresentScalar.cpybit v bit bitv).testBit m =
      if m = bit then decide (bitv = 1) else v.testBit m := by
  unfold PresentScalar.cpybit
  rw [show (256 : Nat) = 2 ^ 8 from by norm_num]
  simp only [Nat.testBit_mod_two_pow, Nat.testBit_or, Nat.testBit_and, Nat.testBit_xor,
    Nat.testBit_shiftLeft, decide_eq_true hm, Bool.true_and]
  rw [testBit_le_one bitv _ hx, testBit_le_one 1 _ (by omega),
    show (255 : Nat) = 2 ^ 8 - 1 from by norm_num, Nat.testBit_two_pow_sub_one,
    decide_eq_true hm]
  by_cases hmb : m = bit
  · rw [if_pos hmb]
    subst hmb
    simp [show m ≥ m from le_refl m, show m - m = 0 from by omega]
  · rw [if_neg hmb]
    by_cases hge : bit ≤ m
    · have hne : ¬ (m - bit = 0) := by omega
      simp [hge, hne]
    · have hne : ¬ (m ≥ bit) := hge
      simp [hne]

theorem pboxIdx_lt (b : Nat) (hb : b < 64) : pboxIdx b < 64 := by
  unfold pboxIdx
  omega

theorem pboxInv_lt (p : Nat) (hp : p < 64) : pboxInv p < 64 := by
  unfold pboxInv
  omega

theorem pboxInv_pboxIdx (b : Nat) (hb : b < 64) : pboxInv (pboxIdx b) = b := by
  unfold pboxIdx pboxInv
  omega

theorem pboxIdx_pboxInv (p : Nat) (hp : p < 64) : pboxIdx (pboxInv p) = p := by
  unfold pboxIdx pboxInv
  omega

theorem pboxFoldAux_spec (s : List Nat) (n : Nat) (hn : n ≤ 64) :
    (pboxFoldAux s n).length = 8 ∧
    (∀ q : Nat, (pboxFoldAux s n).getD q 0 < 256) ∧
    (∀ p, p < 64 → ((pboxFoldAux s n).getD (p / 8) 0).testBit (p % 8) =
      (decide (pboxInv p < n) &&
        ((s.getD (pboxInv p / 8) 0).testBit (pboxInv p % 8)))) := by
  induction n with
  | zero =>
    refine ⟨rfl, fun q => ?_, fun p hp => ?_⟩
    · rw [show pboxFoldAux s 0 = List.replicate 8 0 from rfl, replicate_getD]
      omega
    · rw [show pboxFoldAux s 0 = List.replicate 8 0 from rfl, replicate_getD]
      simp
  | succ n ih =>
    obtain ⟨ihlen, ihlt, ihbit⟩ := ih (by omega)
    have hn64 : n < 64 := by omega
    have hpn : pboxIdx n < 64 := pboxIdx_lt n hn64
    have hstep : pboxFoldAux s (n + 1) = (pboxFoldAux s n).set (pboxIdx n / 8)
        (PresentScalar.cpybit ((pboxFoldAux s n).getD (pboxIdx n / 8) 0) (pboxIdx n % 8)
          (PresentScalar.getbit (s.getD (n / 8) 0) (n % 8))) := by
      unfold pboxFoldAux
      rw [List.range_succ, List.foldl_append, List.foldl_cons, List.foldl_nil]
    refine ⟨?_, fun q => ?_, fun p hp => ?_⟩
    · rw [hstep, List.length_set]
      exact ihlen
    · rw [hstep]
      by_cases hq : pboxIdx n / 8 = q
      · rw [← hq, getD_set_eq _ _ _ (by rw [ihlen]; omega)]
        unfold PresentScalar.cpybit
        exact Nat.mod_lt _ (by norm_num)
      · rw [getD_set_ne _ _ _ _ hq]
        exact ihlt q
    · rw [hstep]
      by_cases hq : pboxIdx n / 8 = p / 8
      · rw [hq, getD_set_eq _ _ _ (by rw [ihlen]; omega)]
        rw [testBit_cpybit _ _ _ _ (by omega) (by omega) (getbit_le_one _ _)]
        by_cases hpb : p = pboxIdx n
        · rw [if_pos (by omega), getbit_eq_one]
          have hinv : pboxInv p = n := by
            rw [hpb, pboxInv_pboxIdx n hn64]
          rw [hinv, decide_eq_true (show n < n + 1 by omega), Bool.true_and]
        · have hne : p % 8 ≠ pboxIdx n % 8 := by
            intro hc
            apply hpb
            omega
          rw [if_neg hne, ihbit p hp]
          have hinvne : pboxInv p ≠ n := by
            intro hc
            apply hpb
            rw [← hc, pboxIdx_pboxInv p hp]
          have hiff : (pboxInv p < n + 1) ↔ (pboxInv p < n) := by omega
          rw [show decide (pboxInv p < n + 1) = decide (pboxInv p < n) from by
            simp only [hiff]]
      · rw [getD_set_ne _ _ _ _ hq, ihbit p hp]
        have hinvne : pboxInv p ≠ n := by
          intro hc
          have : pboxIdx n = p := by rw [← hc, pboxIdx_pboxInv p hp]
          omega
        have hiff : (pboxInv p < n + 1) ↔ (pboxInv p < n) := by omega
        rw [show decide (pboxInv p < n + 1) = decide (pboxInv p < n) from by
          simp only [hiff]]

theorem scalar_pbox_bit (s : List Nat) (p : Nat) (hp : p < 64) :
    bitOf (PresentScalar.pbox_layer s) p = bitOf s (pboxInv p) := by
  rw [pbox_layer_eq_aux]
  unfold bitOf
  rw [(pboxFoldAux_spec s 64 (le_refl 64)).2.2 p hp,
    decide_eq_true (pboxInv_lt p hp), Bool.true_and]

theorem pbox_layer_wf (s : List Nat) : bytesWF (PresentScalar.pbox_layer s) 8 := by
  rw [pbox_layer_eq_aux]
  obtain ⟨hlen, hlt, _⟩ := pboxFoldAux_spec s 64 (le_refl 64)
  refine ⟨hlen, fun v hv => ?_⟩
  obtain ⟨i, hi, hv⟩ := List.getElem_of_mem hv
  have : (pboxFoldAux s 64).getD i 0 = v := by
    rw [List.getD_eq_getElem?_getD, List.getElem?_eq_getElem hi, hv]
    rfl
  rw [← this]
  exact hlt i

theorem bsPboxFoldAux_spec (st : List Nat) (n : Nat) (hn : n ≤ 64) :
    (bsPboxFoldAux st n).length = 64 ∧
    (∀ p, p < 64 → (bsPboxFoldAux st n).getD p 0 =
      if pboxInv p < n then st.getD (pboxInv p) 0 else 0) := by
  induction n with
  | zero =>
    refine ⟨rfl, fun p hp => ?_⟩
    rw [show bsPboxFoldAux st 0 = List.replicate 64 0 from rfl, if_neg (by omega),
      List.getD_eq_getElem?_getD, List.getElem?_replicate]
    split <;> rfl
  | succ n ih =>
    obtain ⟨ihlen, ihval⟩ := ih (by omega)
    have hn64 : n < 64 := by omega
    have hstep : bsPboxFoldAux st (n + 1) =
        (bsPboxFoldAux st n).set (pboxIdx n) (st.getD n 0) := by
      unfold bsPboxFoldAux
      rw [List.range_succ, List.foldl_append, List.foldl_cons, List.foldl_nil]
    refine ⟨by rw [hstep, List.length_set]; exact ihlen, fun p hp => ?_⟩
    rw [hstep]
    by_cases hpe : pboxIdx n = p
    · subst hpe
      rw [getD_set_eq _ _ _ (by rw [ihlen]; exact pboxIdx_lt n hn64),
        pboxInv_pboxIdx n hn64, if_pos (by omega)]
    · rw [getD_set_ne _ _ _ _ hpe, ihval p hp]
      have hne : pboxInv p ≠ n := by
        intro hc
        apply hpe
        rw [← pboxIdx_pboxInv p hp, hc]
      have hiff : (pboxInv p < n + 1) ↔ (pboxInv p < n) := by omega
      simp only [hiff]

theorem bs_pbox_getD (st : List Nat) (p : Nat) (hp : p < 64) :
    (PresentBS.pbox_layer st).getD p 0 = st.getD (pboxInv p) 0 := by
  rw [show PresentBS.pbox_layer st = bsPboxFoldAux st 64 from rfl,
    (bsPboxFoldAux_spec st 64 (le_refl 64)).2 p hp, if_pos (pboxInv_lt p hp)]

theorem pbox_corr (st : List Nat) (f : Nat → List Nat) (h : Corr st f) :
    Corr (PresentBS.pbox_layer st) (fun j => PresentScalar.pbox_layer (f j)) := by
  intro i hi j hj
  rw [bs_pbox_getD st i hi]
  show _ = bitOf (PresentScalar.pbox_layer (f j)) i
  rw [scalar_pbox_bit (f j) i hi]
  exact h (pboxInv i) (pboxInv_lt i hi) j hj

/-! ## C1: well-formedness along the round loop -/

theorem add_round_key_length (pt rk : List Nat) :
    (PresentScalar.add_round_key pt rk).length = 8 := by
  unfold PresentScalar.add_round_key
  rw [List.length_map, List.length_range]
  rfl

theorem add_round_key_wf (pt rk : List Nat) (hpt : ∀ v ∈ pt, v < 256)
    (hrk : ∀ v ∈ rk, v < 256) : bytesWF (PresentScalar.add_round_key pt rk) 8 := by
  refine ⟨add_round_key_length pt rk, fun v hv => ?_⟩
  unfold PresentScalar.add_round_key at hv
  obtain ⟨i, hi, hv⟩ := List.mem_map.mp hv
  rw [← hv]
  exact xor_lt_256 (getD_lt pt 256 (by norm_num) hpt i) (getD_lt rk 256 (by norm_num) hrk i)

theorem sbox_layer_wf (s : List Nat) : bytesWF (PresentScalar.sbox_layer s) 8 := by
  constructor
  · unfold PresentScalar.sbox_layer
    rw [List.length_map, List.length_range]
    rfl
  · intro v hv
    unfold PresentScalar.sbox_layer at hv
    obtain ⟨i, hi, hv⟩ := List.mem_map.mp hv
    rw [← hv]
    apply or_lt_256
    · have := sbox_getD_lt (s.getD i 0 &&& 0xF)
      omega
    · have hs := sbox_getD_lt (s.getD i 0 >>> 4)
      rw [Nat.shiftLeft_eq]
      calc PresentScalar.sbox.getD (s.getD i 0 >>> 4) 0 * 2 ^ 4
          ≤ 15 * 2 ^ 4 := Nat.mul_le_mul_right _ (by omega)
      _ < 256 := by norm_num

theorem scalar_loop_wf (L : List Nat) (pt key : List Nat) (hpt : bytesWF pt 8)
    (hkey : ∀ v ∈ key, v < 256) :
    bytesWF ((L.foldl PresentScalar.round_step (pt, key)).1) 8 := by
  induction L generalizing pt key with
  | nil => exact hpt
  | cons a L ih =>
    rw [List.foldl_cons]
    exact ih _ _ (pbox_layer_wf _) (update_round_key_wf key a).2

theorem update_fold_wf (L : List Nat) (key : List Nat) (hk : ∀ v ∈ key, v < 256) :
    ∀ v ∈ L.foldl PresentScalar.update_round_key key, v < 256 := by
  induction L generalizing key with
  | nil => exact hk
  | cons a L ih =>
    rw [List.foldl_cons]
    exact ih _ (update_round_key_wf key a).2

theorem laneOf_wf (pt : List Nat) (hlen : pt.length = 256) (hmem : ∀ v ∈ pt, v < 256)
    (j : Nat) (hj : j < 32) : bytesWF (laneOf pt j) 8 := by
  constructor
  · unfold laneOf
    rw [List.length_take, List.length_drop, hlen]
    omega
  · intro v hv
    exact hmem v (List.drop_subset _ _ (List.take_subset _ _ hv))

/-! ## C1: the round loop preserves the lane correspondence -/

theorem fold_snd (L : List Nat) (pt key : List Nat) :
    (L.foldl PresentScalar.round_step (pt, key)).2 =
      L.foldl PresentScalar.update_round_key key := by
  induction L generalizing pt key with
  | nil => rfl
  | cons a L ih =>
    rw [List.foldl_cons, List.foldl_cons]
    exact ih _ _

theorem bs_fold_snd (L : List Nat) (st key : List Nat) :
    (L.foldl PresentBS.round_step (st, key)).2 =
      L.foldl PresentScalar.update_round_key key := by
  induction L generalizing st key with
  | nil => rfl
  | cons a L ih =>
    rw [List.foldl_cons, List.foldl_cons]
    exact ih _ _

theorem loop_corr (L : List Nat) (st : List Nat) (f : Nat → List Nat) (key : List Nat)
    (h : Corr st f) (hw : ∀ j, j < 32 → ∀ v ∈ f j, v < 256) (hk : ∀ v ∈ key, v < 256) :
    Corr ((L.foldl PresentBS.round_step (st, key)).1)
      (fun j => (L.foldl PresentScalar.round_step (f j, key)).1) := by
  induction L generalizing st f key with
  | nil => exact h
  | cons a L ih =>
    rw [List.foldl_cons]
    have hstep : PresentBS.round_step (st, key) a =
        (PresentBS.pbox_layer (PresentBS.sbox_layer (PresentBS.add_round_key st (key.drop 2))),
         PresentScalar.update_round_key key a) := rfl
    have hscstep : ∀ j : Nat, PresentScalar.round_step (f j, key) a =
        (PresentScalar.pbox_layer (PresentScalar.sbox_layer
          (PresentScalar.add_round_key (f j) (key.drop 2))),
         PresentScalar.update_round_key key a) := fun j => rfl
    rw [hstep]
    simp only [List.foldl_cons, hscstep]
    apply ih
    · apply pbox_corr
      apply sbox_corr
      · exact ark_corr _ _ _ h
      · intro j hj
        exact (add_round_key_wf (f j) (key.drop 2) (hw j hj)
          (fun v hv => hk v (List.drop_subset _ _ hv))).2
    · intro j hj
      exact (pbox_layer_wf _).2
    · exact (update_round_key_wf key a).2

/-- C1: for every well-formed key and every choice of `BITSLICE_WIDTH`
plaintext blocks, encrypting each 8-byte block individually with the scalar
`crypto_func` (all under the same initial key) yields the same ciphertext
blocks as encrypting all of them together with the bit-sliced `crypto_func`
on the concatenated `8 * BITSLICE_WIDTH`-byte buffer. -/
theorem bitsliced_refines_scalar :
    ∀ pt key : List Nat, bytesWF pt (8 * BITSLICE_WIDTH) → bytesWF key CRYPTO_KEY_SIZE →
      (PresentBS.crypto_func pt key).1 =
        ((List.range BITSLICE_WIDTH).map fun j =>
          (PresentScalar.crypto_func (laneOf pt j) key).1).flatten := by
  intro pt key hpt hkey
  obtain ⟨hptlen, hptmem⟩ := hpt
  obtain ⟨hklen, hkmem⟩ := hkey
  have hptlen' : pt.length = 256 := by rw [hptlen]; rfl
  show PresentBS.unslice (PresentBS.add_round_key
      ((List.range' 1 31).foldl PresentBS.round_step (PresentBS.enslice pt, key)).1
      ((((List.range' 1 31).foldl PresentBS.round_step (PresentBS.enslice pt, key)).2).drop 2)) =
    ((List.range BITSLICE_WIDTH).map fun j =>
      PresentScalar.add_round_key
        ((List.range' 1 31).foldl PresentScalar.round_step (laneOf pt j, key)).1
        ((((List.range' 1 31).foldl PresentScalar.round_step (laneOf pt j, key)).2).drop 2)).flatten
  have hKs : ∀ j : Nat,
      ((List.range' 1 31).foldl PresentScalar.round_step (laneOf pt j, key)).2 =
        (List.range' 1 31).foldl PresentScalar.update_round_key key := fun j => fold_snd _ _ _
  rw [bs_fold_snd]
  simp only [hKs]
  have hKwf : ∀ v ∈ (List.range' 1 31).foldl PresentScalar.update_round_key key, v < 256 :=
    update_fold_wf _ _ hkmem
  have hdropwf : ∀ v ∈ ((List.range' 1 31).foldl PresentScalar.update_round_key key).drop 2,
      v < 256 := fun v hv => hKwf v (List.drop_subset _ _ hv)
  have hcorr := loop_corr (List.range' 1 31) (PresentBS.enslice pt) (laneOf pt) key
    (enslice_corr pt) (fun j hj => (laneOf_wf pt hptlen' hptmem j hj).2) hkmem
  have hfin := ark_corr _ _
    (((List.range' 1 31).foldl PresentScalar.update_round_key key).drop 2) hcorr
  have hlanewf : ∀ j, j < 32 → ∀ v ∈ PresentScalar.add_round_key
      ((List.range' 1 31).foldl PresentScalar.round_step (laneOf pt j, key)).1
      (((List.range' 1 31).foldl PresentScalar.update_round_key key).drop 2), v < 256 :=
    fun j hj => (add_round_key_wf _ _
      (scalar_loop_wf _ _ _ (laneOf_wf pt hptlen' hptmem j hj) hkmem).2 hdropwf).2
  rw [show BITSLICE_WIDTH = 32 from rfl]
  rw [flatten_fixed 8 (by norm_num)
    (fun j => PresentScalar.add_round_key
      ((List.range' 1 31).foldl PresentScalar.round_step (laneOf pt j, key)).1
      (((List.range' 1 31).foldl PresentScalar.update_round_key key).drop 2))
    (fun j => add_round_key_length _ _)
    32]
  apply eq_of_getD
  · unfold PresentBS.unslice
    rw [List.length_map, List.length_range, List.length_map, List.length_range]
    rfl
  · intro k hk
    have hk' : k < 256 := by
      have h := hk
      unfold PresentBS.unslice at h
      rw [List.length_map, List.length_range] at h
      exact h
    rw [getD_range_map, if_pos (show k < 8 * 32 by omega)]
    apply Nat.eq_of_testBit_eq
    intro m
    by_cases hm : m < 8
    · rw [unslice_getD_testBit _ _ hk' m, decide_eq_true hm, Bool.true_and]
      have hbit := hfin (8 * (k % 8) + m) (by omega) (k / 8) (by omega)
      rw [hbit]
      show bitOf (PresentScalar.add_round_key _ _) (8 * (k % 8) + m) = _
      unfold bitOf
      rw [show (8 * (k % 8) + m) / 8 = k % 8 from by omega,
        show (8 * (k % 8) + m) % 8 = m from by omega]
    · have h28 : (256 : Nat) ≤ 2 ^ m := by
        calc (256 : Nat) = 2 ^ 8 := by norm_num
        _ ≤ 2 ^ m := Nat.pow_le_pow_right (by omega) (by omega)
      have e1 : ∀ x : Nat, x < 256 → x.testBit m = false := fun x hx =>
        Nat.testBit_lt_two_pow (by omega)
      rw [e1 _ (unslice_getD_lt _ _),
        e1 _ (getD_lt _ 256 (by norm_num) (hlanewf (k / 8) (by omega)) _)]

set_option maxRecDepth 1000000 in
theorem bitsliced_refines_scalar_witness :
    (PresentBS.crypto_func (List.replicate 256 0) (List.replicate 10 0)).1 =
      ((List.range BITSLICE_WIDTH).map fun j =>
        (PresentScalar.crypto_func (laneOf (List.replicate 256 0) j) (List.replicate 10 0)).1).flatten :=
  bitsliced_refines_scalar _ _ (by decide) (by decide)
